import Mathlib

/-!
Verification of the `LinearDict` container from `cirq/value/linear_dict.py`.

`LinearDict` is a Python `dict` subclass mapping opaque hashable "vector" keys
to complex coefficients, with zero-eliding semantics and overloaded vector
arithmetic.  We embed it shallowly:

* A Python `dict` is modelled as an insertion-ordered association list with
  pairwise-distinct keys (`NodupKeys`); the `super()` (plain `dict`) methods
  the source calls become the `dictGet?` / `dictSet` / `dictDel` /
  `dictUpdate` primitives below, which preserve insertion order the way
  CPython dicts do (overwriting a present key keeps its position, fresh keys
  are appended).
* Coefficients (`complex`) are modelled exactly, as pairs of rationals.  The
  claims under verification are about the container algorithms (zero elision,
  overwrite vs. summation, equality, division by zero, frames), none of which
  depend on floating-point rounding, so the exact model is the faithful one.
* Mutation is modelled by explicit state passing: a Python method that
  mutates `self` becomes a function returning the new value of `self`.
  A loop such as `for vector, coeff in other.items(): ...` reads
  `other.items()` once, as a snapshot (in the source, `items` builds a cleaned
  *copy*), so it is embedded as a fold over the snapshot list while threading
  the evolving state of `self` — which also models the aliased call
  `a += a` faithfully.
* Fallible operations (`__truediv__`, which lets a `ZeroDivisionError` from
  `1 / a` propagate) return `Option`.
-/

namespace LinDict

/-- Model of the Python `complex` coefficient type (`Scalar = Union[complex,
float]` in the source; real inputs are normalised to complex).  Modelled with
exact rational real and imaginary parts. -/
structure Scalar where
  re : ℚ
  im : ℚ
deriving DecidableEq, Repr

namespace Scalar

/-- Complex addition, as performed by `old_coefficient + other_coefficient`. -/
def add (x y : Scalar) : Scalar := ⟨x.re + y.re, x.im + y.im⟩

/-- Complex subtraction, as performed by `old_coefficient - other_coefficient`. -/
def sub (x y : Scalar) : Scalar := ⟨x.re - y.re, x.im - y.im⟩

/-- Complex negation, as performed by `-c` in `__neg__`. -/
def neg (x : Scalar) : Scalar := ⟨-x.re, -x.im⟩

/-- Complex multiplication, as performed by `self[vector] *= a`. -/
def mul (x y : Scalar) : Scalar :=
  ⟨x.re * y.re - x.im * y.im, x.re * y.im + x.im * y.re⟩

instance : Add Scalar := ⟨Scalar.add⟩
instance : Sub Scalar := ⟨Scalar.sub⟩
instance : Neg Scalar := ⟨Scalar.neg⟩
instance : Mul Scalar := ⟨Scalar.mul⟩
instance : Zero Scalar := ⟨⟨0, 0⟩⟩
instance : One Scalar := ⟨⟨1, 0⟩⟩

/-- Squared modulus of a complex scalar. -/
def abs2 (x : Scalar) : ℚ := x.re * x.re + x.im * x.im

/-- Exact complex reciprocal: the value of Python's `1 / a` for `a ≠ 0`. -/
def inv (x : Scalar) : Scalar := ⟨x.re / x.abs2, -x.im / x.abs2⟩

/-- Scalar division `x / y`, which in Python raises `ZeroDivisionError`
when `y == 0` (for `int`, `float` and `complex` alike); modelled as `none`. -/
def sdiv (x y : Scalar) : Option Scalar :=
  if y = 0 then none else some (x * Scalar.inv y)

end Scalar

/-- Model of the container: a Python `dict` is an insertion-ordered
association list.  Real dicts cannot hold duplicate keys; `NodupKeys` states
that side condition where a lemma needs it. -/
abbrev LinearDict (V : Type) : Type := List (V × Scalar)

variable {V : Type} [DecidableEq V]

/-- Keys of the underlying dict are pairwise distinct (always true of a real
Python `dict`; every constructor of the model establishes it). -/
def NodupKeys (d : LinearDict V) : Prop := (d.map Prod.fst).Nodup

/-- Zero-elision invariant I1: no stored entry has coefficient exactly `0+0i`. -/
def wfZero (d : LinearDict V) : Prop := ∀ p ∈ d, p.2 ≠ (0 : Scalar)

instance nodupKeysDecidable (d : LinearDict V) : Decidable (NodupKeys d) :=
  List.nodupDecidable (d.map Prod.fst)

instance wfZeroDecidable (d : LinearDict V) : Decidable (wfZero d) := by
  unfold wfZero
  exact List.decidableBAll (fun p => p.2 ≠ (0 : Scalar)) d

/-- Plain-dict lookup: `dict.get(v)` returning `None` when absent.  Returns
the (unique, in a real dict) entry for `v`. -/
def dictGet? : LinearDict V → V → Option Scalar
  | [], _ => none
  | p :: rest, v => if p.1 = v then some p.2 else dictGet? rest v

/-- Plain-dict lookup with default `0`: the source's `super().get(vector, 0)`. -/
def dictGet (d : LinearDict V) (v : V) : Scalar := (dictGet? d v).getD 0

/-- Plain-dict store, `super().__setitem__`: overwriting a present key keeps
its position (CPython behaviour); a fresh key is appended at the end. -/
def dictSet : LinearDict V → V → Scalar → LinearDict V
  | [], v, c => [(v, c)]
  | p :: rest, v, c => if p.1 = v then (p.1, c) :: rest else p :: dictSet rest v c

/-- Plain-dict deletion, `super().__delitem__` / `del self[v]` (only ever
called by the source on keys known to be present). -/
def dictDel : LinearDict V → V → LinearDict V
  | [], _ => []
  | p :: rest, v => if p.1 = v then rest else p :: dictDel rest v

/-- Plain-dict membership, `super().__contains__`. -/
def dictContains (d : LinearDict V) (v : V) : Bool := (dictGet? d v).isSome

/-- Plain-dict bulk assignment, `super().update(other)`: iterate the pairs of
`other` in order, assigning each — so a key occurring several times is
overwritten left to right (last write wins). -/
def dictUpdate (d : LinearDict V) (other : List (V × Scalar)) : LinearDict V :=
  other.foldl (fun st p => dictSet st p.1 p.2) d

/-- Exact embedding of Python's `abs(c) <= atol` over the rational model:
`abs c ≤ atol` iff `atol` is nonnegative and `|c|² ≤ atol²` (both sides of
the original comparison are nonnegative, so squaring is lossless; a negative
`atol` makes the comparison false since `abs c ≥ 0`).  The squared comparison
is computed on the canonical numerator/denominator representations — all
integer arithmetic, so it evaluates by kernel reduction; `absLe_iff` below
proves it equal to the rational-level statement `0 ≤ atol ∧ |c|² ≤ atol²`. -/
def absLe (c : Scalar) (atol : ℚ) : Bool :=
  decide (0 ≤ atol.num) &&
  decide ((c.re.num * c.re.num * ((c.im.den : ℤ) * (c.im.den : ℤ)) +
           c.im.num * c.im.num * ((c.re.den : ℤ) * (c.re.den : ℤ))) *
            ((atol.den : ℤ) * (atol.den : ℤ))
          ≤ atol.num * atol.num *
            (((c.re.den : ℤ) * (c.re.den : ℤ)) * ((c.im.den : ℤ) * (c.im.den : ℤ))))

/-- The method `clean(atol)`: delete every entry whose coefficient has
absolute value at most `atol`, i.e. keep the rest, preserving order; the
source collects the negligible keys from `super().items()` and `del`s each. -/
def clean (d : LinearDict V) (atol : ℚ) : LinearDict V :=
  d.filter fun p => !(absLe p.2 atol)

/-- The `atol` default of `clean`: `1e-9`. -/
def cleanDefaultAtol : ℚ := 1 / 1000000000

/-- The method `clean()` called with its default tolerance. -/
def cleanDefault (d : LinearDict V) : LinearDict V := clean d cleanDefaultAtol

/-- State-passing form of `clean`: `(returned value, state of self after the
call)`.  The method mutates `self` in place and ends with `return self`, so
the two components coincide. -/
def cleanSt (d : LinearDict V) (atol : ℚ) : LinearDict V × LinearDict V :=
  (clean d atol, clean d atol)

/-- The constructor `__init__(terms)`: start from an empty dict and
`self.update(terms)` — which is `super().update` followed by `clean(atol=0)`. -/
def init (terms : List (V × Scalar)) : LinearDict V :=
  clean (dictUpdate [] terms) 0

/-- The method `update(*args)`: `super().update(*args)` then `self.clean(atol=0)`. -/
def update (d : LinearDict V) (other : List (V × Scalar)) : LinearDict V :=
  clean (dictUpdate d other) 0

/-- The classmethod `fromkeys(vectors, coefficient)`: builds
`LinearDict(dict.fromkeys(vectors, complex(coefficient)))`, i.e. every listed
key maps to the same coefficient (`complex(...)` is the identity in the
model, where coefficients are already complex). -/
def fromkeys (vectors : List V) (coefficient : Scalar) : LinearDict V :=
  init (vectors.map fun v => (v, coefficient))

/-- The method `copy()`: `LinearDict(super().copy())` — a plain shallow dict
copy passed back through the constructor (hence re-cleaned of exact zeros). -/
def copy (d : LinearDict V) : LinearDict V := init d

/-- The method `items()`: a cleaned snapshot, `self.copy().clean(atol=0)`. -/
def items (d : LinearDict V) : LinearDict V := clean (copy d) 0

/-- The method `keys()`: the keys of the cleaned snapshot. -/
def keys (d : LinearDict V) : List V := (items d).map Prod.fst

/-- The method `values()`: the values of the cleaned snapshot. -/
def values (d : LinearDict V) : List Scalar := (items d).map Prod.snd

/-- The method `__iter__`: iterates the keys of the cleaned snapshot. -/
def iterKeys (d : LinearDict V) : List V := keys d

/-- The method `get(vector, default=0)`: `default` when `super().get(vector,
0) == 0` (key absent or stored coefficient exactly zero), the stored
coefficient otherwise. -/
def get (d : LinearDict V) (v : V) (default : Scalar) : Scalar :=
  if dictGet d v = 0 then default else dictGet d v

/-- The method `__contains__`: present with a nonzero stored coefficient. -/
def contains (d : LinearDict V) (v : V) : Bool :=
  match dictGet? d v with
  | none => false
  | some c => decide (c ≠ 0)

/-- The method `__getitem__`: `super().get(vector, 0)` — total, `0` when
absent. -/
def getItem (d : LinearDict V) (v : V) : Scalar := dictGet d v

/-- The method `__setitem__`: store nonzero coefficients; assigning `0`
deletes the entry when present and is a no-op otherwise. -/
def setItem (d : LinearDict V) (v : V) (c : Scalar) : LinearDict V :=
  if c ≠ 0 then dictSet d v c
  else if dictContains d v then dictDel d v else d

/-- The method `__len__`: `len([v for v, c in self.items() if c != 0])`. -/
def length (d : LinearDict V) : ℕ :=
  ((items d).filter fun p => decide (p.2 ≠ 0)).length

/-- One iteration of the `__iadd__` / `__isub__` loop body:
`super().__setitem__(vector, op(super().get(vector, 0), other_coefficient))`. -/
def accumStep (op : Scalar → Scalar → Scalar) (st : LinearDict V) (p : V × Scalar) :
    LinearDict V :=
  dictSet st p.1 (op (dictGet st p.1) p.2)

/-- The method `__iadd__`: fold the loop body over the snapshot
`other.items()` (evaluated once, before any mutation of `self`), then
`self.clean(atol=0)`. -/
def iadd (self other : LinearDict V) : LinearDict V :=
  clean ((items other).foldl (accumStep (fun x y => x + y)) self) 0

/-- The method `__isub__`: as `__iadd__` with subtraction. -/
def isub (self other : LinearDict V) : LinearDict V :=
  clean ((items other).foldl (accumStep (fun x y => x - y)) self) 0

/-- The method `__add__`: `result = self.copy(); result += other; return result`. -/
def add (self other : LinearDict V) : LinearDict V := iadd (copy self) other

/-- The method `__sub__`: `result = self.copy(); result -= other; return result`. -/
def sub (self other : LinearDict V) : LinearDict V := isub (copy self) other

/-- The method `__neg__`: `LinearDict({v: -c for v, c in self.items()})`. -/
def neg (self : LinearDict V) : LinearDict V :=
  init ((items self).map fun p => (p.1, Scalar.neg p.2))

/-- One iteration of the `__imul__` loop body: `self[vector] *= a`, i.e. the
overridden zero-eliding `__setitem__` of the overridden `__getitem__` times `a`. -/
def scaleStep (a : Scalar) (st : LinearDict V) (v : V) : LinearDict V :=
  setItem st v (getItem st v * a)

/-- The method `__imul__`: `for vector in self: self[vector] *= a` (the key
list is the `__iter__` snapshot, evaluated once), then `self.clean(atol=0)`. -/
def imul (self : LinearDict V) (a : Scalar) : LinearDict V :=
  clean ((iterKeys self).foldl (scaleStep a) self) 0

/-- The method `__mul__`: `result = self.copy(); result *= a; return result`. -/
def mul (self : LinearDict V) (a : Scalar) : LinearDict V := imul (copy self) a

/-- The method `__rmul__(a)`: `self.__mul__(a)`. -/
def rmul (a : Scalar) (self : LinearDict V) : LinearDict V := mul self a

/-- The method `__truediv__(a)`: `self.__mul__(1 / a)`; the numeric division
`1 / a` raises `ZeroDivisionError` at `a == 0` (modelled as `none`), in which
case `__mul__` is never entered. -/
def truediv (self : LinearDict V) (a : Scalar) : Option (LinearDict V) :=
  match Scalar.sdiv 1 a with
  | none => none
  | some r => some (mul self r)

/-- State-passing form of `__truediv__`: `(result, state of self after the
call)`.  When `1 / a` raises, `__mul__` never executes, so `self` is
untouched; when it succeeds, `__mul__` operates on a copy, so `self` is
likewise only read. -/
def truedivSt (self : LinearDict V) (a : Scalar) :
    Option (LinearDict V) × LinearDict V :=
  match Scalar.sdiv 1 a with
  | none => (none, self)
  | some r => (some (mul self r), self)

/-- The method `__bool__`: `not all(c == 0 for c in self.values())`. -/
def bool (d : LinearDict V) : Bool :=
  !((values d).all fun c => decide (c = 0))

/-- The key set union `set(self.keys()) | set(other.keys())` iterated by
`__eq__`, as a duplicate-free list. -/
def unionKeys (a b : LinearDict V) : List V :=
  keys a ++ (keys b).filter fun v => decide (v ∉ keys a)

/-- The body of `__eq__` once the `isinstance` check has passed:
`all(self[v] == other[v] for v in all_vs)`. -/
def eqB (a b : LinearDict V) : Bool :=
  (unionKeys a b).all fun v => decide (getItem a v = getItem b v)

/-- Result type of a Python rich comparison: either a boolean or the
`NotImplemented` escape that lets the interpreter try the reflected
operation. -/
inductive PyCmpResult where
  | res (b : Bool)
  | notImplemented
deriving DecidableEq, Repr

/-- The method `__eq__(other)`: `NotImplemented` unless `other` is a
`LinearDict` (the non-`LinearDict` operand is modelled by `Sum.inr`). -/
def eqMethod (a : LinearDict V) (other : LinearDict V ⊕ Unit) : PyCmpResult :=
  match other with
  | Sum.inl b => PyCmpResult.res (eqB a b)
  | Sum.inr _ => PyCmpResult.notImplemented

/-- The method `__ne__(other)`: `NotImplemented` for a non-`LinearDict`
operand, otherwise `not self == other`. -/
def neMethod (a : LinearDict V) (other : LinearDict V ⊕ Unit) : PyCmpResult :=
  match other with
  | Sum.inl b => PyCmpResult.res (!(eqB a b))
  | Sum.inr _ => PyCmpResult.notImplemented

/-- State-passing form of `__add__`: `(result, self after, other after)`.
The body assigns only to the fresh copy `result`; `self` is read once (by
`copy`) and `other` only through the `items()` snapshot inside `__iadd__`,
so both post-states equal the pre-states. -/
def addSt (self other : LinearDict V) :
    LinearDict V × LinearDict V × LinearDict V :=
  (iadd (copy self) other, self, other)

/-- State-passing form of `__sub__`; same frame reasoning as `addSt`. -/
def subSt (self other : LinearDict V) :
    LinearDict V × LinearDict V × LinearDict V :=
  (isub (copy self) other, self, other)

/-- State-passing form of `__mul__`: the loop of `__imul__` runs on the fresh
copy, `self` is only read. -/
def mulSt (self : LinearDict V) (a : Scalar) : LinearDict V × LinearDict V :=
  (imul (copy self) a, self)

/-- State-passing form of `__rmul__`. -/
def rmulSt (a : Scalar) (self : LinearDict V) : LinearDict V × LinearDict V :=
  (mul self a, self)

/-- State-passing form of `__neg__`: builds a brand-new `LinearDict` from the
`items()` snapshot; `self` is only read. -/
def negSt (self : LinearDict V) : LinearDict V × LinearDict V :=
  (neg self, self)

/-- Decimal digit character. -/
def digitChar (n : ℕ) : Char :=
  if n = 0 then '0' else if n = 1 then '1' else if n = 2 then '2'
  else if n = 3 then '3' else if n = 4 then '4' else if n = 5 then '5'
  else if n = 6 then '6' else if n = 7 then '7' else if n = 8 then '8' else '9'

/-- Decimal digits of a natural number (fuel-driven recursion; the fuel
`n + 1` in `natStr` always suffices). -/
def natDigits : ℕ → ℕ → List Char
  | 0, _ => []
  | fuel + 1, n =>
      if n < 10 then [digitChar n]
      else natDigits fuel (n / 10) ++ [digitChar (n % 10)]

/-- Decimal rendering of a natural number. -/
def natStr (n : ℕ) : String := ⟨natDigits (n + 1) n⟩

/-- Three-digit zero-padded rendering, for the fractional part of `'.3f'`. -/
def pad3 (n : ℕ) : String :=
  if n < 10 then "00" ++ natStr n
  else if n < 100 then "0" ++ natStr n
  else natStr n

/-- Round-half-even of `1000 * |q|`, the thousandths digit string of Python's
`'{:.3f}'.format` applied to the exact value `|q|`.  Computed on the
canonical numerator/denominator so it evaluates by kernel reduction.
(CPython formats the exact binary value of a float this way; the model works
with the exact rational value instead, which agrees on every value exactly
representable in both.) -/
def roundMillis (q : ℚ) : ℕ :=
  let n : ℕ := 1000 * q.num.natAbs
  let d : ℕ := q.den
  let q0 : ℕ := n / d
  let r : ℕ := n % d
  if d < 2 * r then q0 + 1
  else if 2 * r < d then q0
  else if q0 % 2 = 0 then q0 else q0 + 1

/-- Python's `'{:.3f}'.format(q)`: sign, integer part, point, three decimals.
A negative value rounding to zero renders as `-0.000`, as CPython does. -/
def fixed3 (q : ℚ) : String :=
  let core := natStr (roundMillis q / 1000) ++ "." ++ pad3 (roundMillis q % 1000)
  if q.num < 0 then "-" ++ core else core

/-- The source's `float(real_str) == 0` test on a `'.3f'`-formatted string:
the string parses back to zero exactly when the rounded millis are zero
(`0.000` or `-0.000`). -/
def fmtIsZero (q : ℚ) : Bool := roundMillis q == 0

/-- First character of a string, the source's `s[0]` (used only on nonempty
strings there). -/
def strHead (s : String) : Option Char := s.data.head?

/-- All but the first character, the source's `s[1:]`. -/
def strTail (s : String) : String := ⟨s.data.drop 1⟩

/-- The staticmethod `_format_coefficient(format_spec, coefficient)` at
`format_spec = '.3f'` (the spec `__str__` uses): format real and imaginary
parts independently, drop the term when both format to zero, render pure
real / pure imaginary specially, and parenthesise the mixed cases. -/
def formatCoefficient (c : Scalar) : String :=
  let realStr := fixed3 c.re
  let imagStr := fixed3 c.im
  if fmtIsZero c.re && fmtIsZero c.im then ""
  else if fmtIsZero c.im then realStr
  else if fmtIsZero c.re then imagStr ++ "j"
  else if strHead realStr = some '-' ∧ strHead imagStr = some '-' then
    "-(" ++ strTail realStr ++ "+" ++ strTail imagStr ++ "j)"
  else if strHead imagStr = some '+' ∨ strHead imagStr = some '-' then
    "(" ++ realStr ++ imagStr ++ "j)"
  else "(" ++ realStr ++ "+" ++ imagStr ++ "j)"

/-- The staticmethod `_format_term(format_spec, vector, coefficient)` at
`'.3f'`: empty when the coefficient formats to nothing, otherwise
`coefficient '*' str(vector)` with an explicit leading `+` when the
coefficient string carries no sign.  `disp` models `str` on keys. -/
def formatTerm (disp : V → String) (v : V) (c : Scalar) : String :=
  let coefficientStr := formatCoefficient c
  if coefficientStr = "" then coefficientStr
  else
    let result := coefficientStr ++ "*" ++ disp v
    if strHead result = some '+' ∨ strHead result = some '-' then result
    else "+" ++ result

/-- Insertion into a sorted list under the strict order `lt`, for `sorted`. -/
def insertKey (lt : V → V → Bool) (x : V) : List V → List V
  | [] => [x]
  | y :: ys => if lt y x then y :: insertKey lt x ys else x :: y :: ys

/-- Python's `sorted` on the key list: ascending under the key type's strict
order `lt` (insertion sort; any correct sort agrees on distinct keys). -/
def sortKeys (lt : V → V → Bool) : List V → List V
  | [] => []
  | x :: xs => insertKey lt x (sortKeys lt xs)

/-- The method `__format__(format_spec)` at `'.3f'`: format each term for the
sorted keys, concatenate with no separator, strip a leading `+`, and render
an empty result as `0` formatted under the spec — which for `'.3f'` is the
string `0.000`. -/
def formatLD (lt : V → V → Bool) (disp : V → String) (d : LinearDict V) : String :=
  let ks := sortKeys lt (keys d)
  let s := (ks.map fun v => formatTerm disp v (getItem d v)).foldl
    (fun a b => a ++ b) ""
  if s = "" then fixed3 0
  else if strHead s = some '+' then strTail s
  else s

/-- The method `__str__`: `self.__format__('.3f')`. -/
def strLD (lt : V → V → Bool) (disp : V → String) (d : LinearDict V) : String :=
  formatLD lt disp d

/-- Code-point lexicographic comparison of character lists, the order Python
uses to compare strings. -/
def charListLt : List Char → List Char → Bool
  | [], [] => false
  | [], _ :: _ => true
  | _ :: _, [] => false
  | a :: as, b :: bs =>
      if a.toNat < b.toNat then true
      else if b.toNat < a.toNat then false
      else charListLt as bs

/-- Python's `<` on strings, used by `sorted` for string keys. -/
def strLt (a b : String) : Bool := charListLt a.data b.data

/-- Last-write-wins reading of a raw pair list: the value of the last pair
with key `k`, if any.  This is the dictionary that Python's assignment
semantics builds from the list. -/
def lastVal : List (V × Scalar) → V → Option Scalar
  | [], _ => none
  | p :: rest, k =>
      match lastVal rest k with
      | some c => some c
      | none => if p.1 = k then some p.2 else none

theorem Scalar.zero_re : (0 : Scalar).re = 0 := rfl

theorem Scalar.zero_im : (0 : Scalar).im = 0 := rfl

theorem Scalar.add_zero_right (x : Scalar) : x + 0 = x := by
  show Scalar.add x 0 = x
  cases x
  simp [Scalar.add, Scalar.zero_re, Scalar.zero_im]

theorem Scalar.sub_zero_right (x : Scalar) : x - 0 = x := by
  show Scalar.sub x 0 = x
  cases x
  simp [Scalar.sub, Scalar.zero_re, Scalar.zero_im]

theorem Scalar.zero_mul_left (s : Scalar) : (0 : Scalar) * s = 0 := by
  show Scalar.mul 0 s = 0
  show Scalar.mk (0 * s.re - 0 * s.im) (0 * s.im + 0 * s.re) = ⟨0, 0⟩
  norm_num

theorem Scalar.add_neg_self (x : Scalar) : x + Scalar.neg x = 0 := by
  show Scalar.add x (Scalar.neg x) = 0
  show Scalar.mk (x.re + -x.re) (x.im + -x.im) = ⟨0, 0⟩
  norm_num

theorem Scalar.sub_self_eq_zero (x : Scalar) : x - x = 0 := by
  show Scalar.sub x x = 0
  show Scalar.mk (x.re - x.re) (x.im - x.im) = ⟨0, 0⟩
  norm_num

theorem Scalar.neg_zero_eq : Scalar.neg 0 = 0 := by
  show Scalar.mk (-(0 : ℚ)) (-(0 : ℚ)) = ⟨0, 0⟩
  norm_num

theorem Scalar.one_mul_left (s : Scalar) : (1 : Scalar) * s = s := by
  show Scalar.mul 1 s = s
  show Scalar.mk (1 * s.re - 0 * s.im) (1 * s.im + 0 * s.re) = s
  cases s
  norm_num

/-- Doubling: `c + c` equals `c * (2+0i)` in exact complex arithmetic. -/
theorem Scalar.add_self_eq_mul_two (c : Scalar) : c + c = c * ⟨2, 0⟩ := by
  show Scalar.add c c = Scalar.mul c ⟨2, 0⟩
  show Scalar.mk (c.re + c.re) (c.im + c.im) =
      ⟨c.re * 2 - c.im * 0, c.re * 0 + c.im * 2⟩
  norm_num
  constructor <;> ring

theorem rat_num_eq (q : ℚ) : (q.num : ℚ) = q * (q.den : ℚ) := by
  have hden : ((q.den : ℚ)) ≠ 0 := by
    exact_mod_cast q.den_nz
  have h := Rat.num_div_den q
  rw [div_eq_iff hden] at h
  exact h

/-- The integer-level comparison in `absLe` means exactly `0 ≤ atol` and
`|c|² ≤ atol²`, which for nonnegative `atol` is Python's `abs(c) <= atol`. -/
theorem absLe_iff (c : Scalar) (atol : ℚ) :
    absLe c atol = true ↔ 0 ≤ atol ∧ c.abs2 ≤ atol * atol := by
  have hred : (0 : ℚ) < (c.re.den : ℚ) := by exact_mod_cast c.re.pos
  have himd : (0 : ℚ) < (c.im.den : ℚ) := by exact_mod_cast c.im.pos
  have htad : (0 : ℚ) < (atol.den : ℚ) := by exact_mod_cast atol.pos
  have hK : (0 : ℚ) <
      ((c.re.den : ℚ) * c.re.den) * ((c.im.den : ℚ) * c.im.den) *
        ((atol.den : ℚ) * atol.den) := by positivity
  rw [absLe, Bool.and_eq_true, decide_eq_true_eq, decide_eq_true_eq]
  constructor
  · rintro ⟨h0, h1⟩
    refine ⟨Rat.num_nonneg.mp h0, ?_⟩
    have h1q : ((c.re.num : ℚ) * c.re.num * ((c.im.den : ℚ) * c.im.den) +
          (c.im.num : ℚ) * c.im.num * ((c.re.den : ℚ) * c.re.den)) *
            ((atol.den : ℚ) * atol.den) ≤
          (atol.num : ℚ) * atol.num *
            (((c.re.den : ℚ) * c.re.den) * ((c.im.den : ℚ) * c.im.den)) := by
      exact_mod_cast h1
    rw [rat_num_eq c.re, rat_num_eq c.im, rat_num_eq atol] at h1q
    have h2 : c.abs2 *
        (((c.re.den : ℚ) * c.re.den) * ((c.im.den : ℚ) * c.im.den) *
          ((atol.den : ℚ) * atol.den)) ≤
        (atol * atol) *
        (((c.re.den : ℚ) * c.re.den) * ((c.im.den : ℚ) * c.im.den) *
          ((atol.den : ℚ) * atol.den)) := by
      simp only [Scalar.abs2]
      nlinarith [h1q]
    exact le_of_mul_le_mul_right h2 hK
  · rintro ⟨h0, h1⟩
    refine ⟨Rat.num_nonneg.mpr h0, ?_⟩
    have h2 : c.abs2 *
        (((c.re.den : ℚ) * c.re.den) * ((c.im.den : ℚ) * c.im.den) *
          ((atol.den : ℚ) * atol.den)) ≤
        (atol * atol) *
        (((c.re.den : ℚ) * c.re.den) * ((c.im.den : ℚ) * c.im.den) *
          ((atol.den : ℚ) * atol.den)) :=
      mul_le_mul_of_nonneg_right h1 hK.le
    simp only [Scalar.abs2] at h2
    have hq : ((c.re.num : ℚ) * c.re.num * ((c.im.den : ℚ) * c.im.den) +
          (c.im.num : ℚ) * c.im.num * ((c.re.den : ℚ) * c.re.den)) *
            ((atol.den : ℚ) * atol.den) ≤
          (atol.num : ℚ) * atol.num *
            (((c.re.den : ℚ) * c.re.den) * ((c.im.den : ℚ) * c.im.den)) := by
      rw [rat_num_eq c.re, rat_num_eq c.im, rat_num_eq atol]
      nlinarith [h2]
    exact_mod_cast hq

theorem absLe_zero_iff (c : Scalar) : absLe c 0 = true ↔ c = 0 := by
  rw [absLe_iff]
  constructor
  · rintro ⟨-, h⟩
    simp only [Scalar.abs2] at h
    rw [show (0 : ℚ) * 0 = 0 by norm_num] at h
    have h1 : c.re * c.re = 0 := by
      nlinarith [mul_self_nonneg c.re, mul_self_nonneg c.im, h]
    have h2 : c.im * c.im = 0 := by
      nlinarith [mul_self_nonneg c.re, mul_self_nonneg c.im, h]
    cases c with
    | mk r i =>
        show Scalar.mk r i = ⟨0, 0⟩
        rw [Scalar.mk.injEq]
        exact ⟨mul_self_eq_zero.mp h1, mul_self_eq_zero.mp h2⟩
  · rintro rfl
    refine ⟨le_refl 0, ?_⟩
    show (0 : ℚ) * 0 + 0 * 0 ≤ 0 * 0
    norm_num

theorem mem_clean {d : LinearDict V} {atol : ℚ} {p : V × Scalar} :
    p ∈ clean d atol ↔ p ∈ d ∧ absLe p.2 atol = false := by
  simp [clean, List.mem_filter]

theorem mem_clean_zero {d : LinearDict V} {p : V × Scalar} :
    p ∈ clean d 0 ↔ p ∈ d ∧ p.2 ≠ 0 := by
  rw [mem_clean]
  constructor
  · rintro ⟨hm, hf⟩
    refine ⟨hm, fun hz => ?_⟩
    rw [hz] at hf
    have : absLe (0 : Scalar) 0 = true := absLe_zero_iff 0 |>.mpr rfl
    simp [this] at hf
  · rintro ⟨hm, hz⟩
    refine ⟨hm, ?_⟩
    cases hab : absLe p.2 0 with
    | false => rfl
    | true => exact absurd ((absLe_zero_iff p.2).mp hab) hz

theorem wfZero_clean_zero (d : LinearDict V) : wfZero (clean d 0) :=
  fun p hp => (mem_clean_zero.mp hp).2

theorem wfZero_clean {d : LinearDict V} (hd : wfZero d) (atol : ℚ) :
    wfZero (clean d atol) :=
  fun p hp => hd p (mem_clean.mp hp).1

theorem clean_zero_eq_self {d : LinearDict V} (hd : wfZero d) : clean d 0 = d := by
  apply List.filter_eq_self.mpr
  intro p hp
  cases hab : absLe p.2 0 with
  | false => simp
  | true => exact absurd ((absLe_zero_iff p.2).mp hab) (hd p hp)

theorem clean_zero_idem (d : LinearDict V) : clean (clean d 0) 0 = clean d 0 :=
  clean_zero_eq_self (wfZero_clean_zero d)

theorem dictGet?_dictSet (d : LinearDict V) (v : V) (c : Scalar) (k : V) :
    dictGet? (dictSet d v c) k = if k = v then some c else dictGet? d k := by
  induction d with
  | nil =>
      by_cases h : k = v
      · subst h; simp [dictSet, dictGet?]
      · have h' : ¬ v = k := fun hh => h hh.symm
        simp [dictSet, dictGet?, h, h']
  | cons p rest ih =>
      by_cases h1 : p.1 = v <;> by_cases h2 : k = v <;>
        simp_all [dictSet, dictGet?] <;> simp_all [eq_comm]

theorem dictDel_sublist (d : LinearDict V) (v : V) :
    List.Sublist (dictDel d v) d := by
  induction d with
  | nil => simp [dictDel]
  | cons p rest ih =>
      by_cases h : p.1 = v
      · simpa [dictDel, h] using List.sublist_cons_self p rest
      · simpa [dictDel, h] using ih.cons₂ p

theorem dictGet?_eq_none_of_not_mem {d : LinearDict V} {k : V}
    (h : k ∉ d.map Prod.fst) : dictGet? d k = none := by
  induction d with
  | nil => rfl
  | cons p rest ih =>
      simp only [List.map_cons, List.mem_cons] at h
      push_neg at h
      have h' : ¬ p.1 = k := fun hh => h.1 hh.symm
      simp [dictGet?, h', ih h.2]

theorem dictGet?_dictDel_ne (d : LinearDict V) {v k : V} (h : k ≠ v) :
    dictGet? (dictDel d v) k = dictGet? d k := by
  induction d with
  | nil => rfl
  | cons p rest ih =>
      by_cases h1 : p.1 = v
      · have hpk : ¬ p.1 = k := fun hh => h ((hh.symm).trans h1)
        have hvk : ¬ v = k := fun hh => h hh.symm
        simp [dictDel, dictGet?, h1, hpk, hvk]
      · simp only [dictDel, if_neg h1, dictGet?]
        by_cases h2 : p.1 = k
        · simp [h2]
        · simp [h2, ih]

theorem dictGet?_dictDel_self {d : LinearDict V} (hnd : NodupKeys d) (v : V) :
    dictGet? (dictDel d v) v = none := by
  induction d with
  | nil => rfl
  | cons p rest ih =>
      simp only [NodupKeys, List.map_cons, List.nodup_cons] at hnd
      by_cases h1 : p.1 = v
      · have hv : v ∉ rest.map Prod.fst := h1 ▸ hnd.1
        simp [dictDel, h1, dictGet?_eq_none_of_not_mem hv]
      · simp [dictDel, dictGet?, h1, ih hnd.2]

theorem dictContains_iff_mem (d : LinearDict V) (v : V) :
    dictContains d v = true ↔ v ∈ d.map Prod.fst := by
  induction d with
  | nil => simp [dictContains, dictGet?]
  | cons p rest ih =>
      by_cases h : p.1 = v
      · simp [dictContains, dictGet?, h]
      · have h' : ¬ v = p.1 := fun hh => h hh.symm
        simp only [dictContains, dictGet?, if_neg h, List.map_cons, List.mem_cons]
        constructor
        · intro hh
          exact Or.inr (ih.mp hh)
        · rintro (hh | hh)
          · exact absurd hh h'
          · exact ih.mpr hh

theorem mem_of_dictGet?_eq_some {d : LinearDict V} {k : V} {c : Scalar}
    (h : dictGet? d k = some c) : (k, c) ∈ d := by
  induction d with
  | nil => simp [dictGet?] at h
  | cons p rest ih =>
      by_cases h1 : p.1 = k
      · simp only [dictGet?, if_pos h1] at h
        cases p with
        | mk a b =>
            cases h1
            cases h
            simp
      · simp only [dictGet?, if_neg h1] at h
        exact List.mem_cons_of_mem _ (ih h)

theorem dictGet?_of_mem {d : LinearDict V} {k : V} {c : Scalar}
    (hnd : NodupKeys d) (h : (k, c) ∈ d) : dictGet? d k = some c := by
  induction d with
  | nil => simp at h
  | cons p rest ih =>
      simp only [NodupKeys, List.map_cons, List.nodup_cons] at hnd
      rcases List.mem_cons.mp h with h1 | h1
      · subst h1
        simp [dictGet?]
      · have hk : k ∈ rest.map Prod.fst :=
          List.mem_map.mpr ⟨(k, c), h1, rfl⟩
        have hne : p.1 ≠ k := fun hh => hnd.1 (hh ▸ hk)
        simp [dictGet?, hne, ih hnd.2 h1]

theorem dictSet_of_not_mem {d : LinearDict V} {v : V}
    (h : v ∉ d.map Prod.fst) (c : Scalar) : dictSet d v c = d ++ [(v, c)] := by
  induction d with
  | nil => rfl
  | cons p rest ih =>
      simp only [List.map_cons, List.mem_cons] at h
      push_neg at h
      have h' : ¬ p.1 = v := fun hh => h.1 hh.symm
      simp [dictSet, h', ih h.2]

theorem keys_dictSet_of_mem {d : LinearDict V} {v : V}
    (h : v ∈ d.map Prod.fst) (c : Scalar) :
    (dictSet d v c).map Prod.fst = d.map Prod.fst := by
  induction d with
  | nil => simp at h
  | cons p rest ih =>
      by_cases h1 : p.1 = v
      · simp [dictSet, h1]
      · have h2 : v ∈ rest.map Prod.fst := by
          simp only [List.map_cons, List.mem_cons] at h
          rcases h with h | h
          · exact absurd h.symm h1
          · exact h
        simp [dictSet, h1, ih h2]

theorem nodupKeys_nil : NodupKeys ([] : LinearDict V) := List.nodup_nil

theorem nodupKeys_dictSet {d : LinearDict V} (h : NodupKeys d) (v : V) (c : Scalar) :
    NodupKeys (dictSet d v c) := by
  by_cases hm : v ∈ d.map Prod.fst
  · unfold NodupKeys
    rw [keys_dictSet_of_mem hm]
    exact h
  · unfold NodupKeys
    rw [dictSet_of_not_mem hm, List.map_append, List.nodup_append]
    refine ⟨h, List.nodup_singleton v, ?_⟩
    intro a ha hb
    simp only [List.map_cons, List.map_nil, List.mem_singleton] at hb
    subst hb
    exact hm ha

theorem nodupKeys_dictDel {d : LinearDict V} (h : NodupKeys d) (v : V) :
    NodupKeys (dictDel d v) :=
  List.Nodup.sublist (List.Sublist.map Prod.fst (dictDel_sublist d v)) h

theorem nodupKeys_clean {d : LinearDict V} (h : NodupKeys d) (atol : ℚ) :
    NodupKeys (clean d atol) :=
  List.Nodup.sublist (List.Sublist.map Prod.fst (List.filter_sublist d)) h

theorem nodupKeys_setItem {d : LinearDict V} (h : NodupKeys d) (v : V) (c : Scalar) :
    NodupKeys (setItem d v c) := by
  unfold setItem
  split_ifs with h1 h2
  · exact nodupKeys_dictSet h v c
  · exact nodupKeys_dictDel h v
  · exact h

theorem nodupKeys_foldl {α : Type} (f : LinearDict V → α → LinearDict V)
    (hf : ∀ st x, NodupKeys st → NodupKeys (f st x)) :
    ∀ (l : List α) (st : LinearDict V), NodupKeys st → NodupKeys (l.foldl f st)
  | [], _, h => h
  | x :: xs, st, h => nodupKeys_foldl f hf xs (f st x) (hf st x h)

theorem nodupKeys_dictUpdate {d : LinearDict V} (h : NodupKeys d)
    (l : List (V × Scalar)) : NodupKeys (dictUpdate d l) :=
  nodupKeys_foldl _ (fun st p hst => nodupKeys_dictSet hst p.1 p.2) l d h

theorem nodupKeys_init (t : List (V × Scalar)) : NodupKeys (init t) :=
  nodupKeys_clean (nodupKeys_dictUpdate nodupKeys_nil t) 0

theorem nodupKeys_update {d : LinearDict V} (h : NodupKeys d)
    (l : List (V × Scalar)) : NodupKeys (update d l) :=
  nodupKeys_clean (nodupKeys_dictUpdate h l) 0

theorem nodupKeys_copy (d : LinearDict V) : NodupKeys (copy d) :=
  nodupKeys_init d

theorem nodupKeys_items (d : LinearDict V) : NodupKeys (items d) :=
  nodupKeys_clean (nodupKeys_copy d) 0

theorem nodupKeys_iadd {a : LinearDict V} (h : NodupKeys a) (b : LinearDict V) :
    NodupKeys (iadd a b) :=
  nodupKeys_clean
    (nodupKeys_foldl _ (fun st p hst => nodupKeys_dictSet hst p.1 _) (items b) a h) 0

theorem nodupKeys_isub {a : LinearDict V} (h : NodupKeys a) (b : LinearDict V) :
    NodupKeys (isub a b) :=
  nodupKeys_clean
    (nodupKeys_foldl _ (fun st p hst => nodupKeys_dictSet hst p.1 _) (items b) a h) 0

theorem nodupKeys_imul {a : LinearDict V} (h : NodupKeys a) (s : Scalar) :
    NodupKeys (imul a s) :=
  nodupKeys_clean
    (nodupKeys_foldl _ (fun st v hst => nodupKeys_setItem hst v _) (iterKeys a) a h) 0

theorem nodupKeys_add (a b : LinearDict V) : NodupKeys (add a b) :=
  nodupKeys_iadd (nodupKeys_copy a) b

theorem nodupKeys_sub (a b : LinearDict V) : NodupKeys (sub a b) :=
  nodupKeys_isub (nodupKeys_copy a) b

theorem nodupKeys_mul (a : LinearDict V) (s : Scalar) : NodupKeys (mul a s) :=
  nodupKeys_imul (nodupKeys_copy a) s

theorem nodupKeys_neg (a : LinearDict V) : NodupKeys (neg a) :=
  nodupKeys_init _

theorem getItem_nil (k : V) : getItem ([] : LinearDict V) k = 0 := rfl

theorem getItem_cons (p : V × Scalar) (rest : LinearDict V) (k : V) :
    getItem (p :: rest) k = if p.1 = k then p.2 else getItem rest k := by
  show (dictGet? (p :: rest) k).getD 0 = if p.1 = k then p.2 else (dictGet? rest k).getD 0
  by_cases h : p.1 = k <;> simp [dictGet?, h]

theorem getItem_eq_zero_of_not_mem_keys {d : LinearDict V} {k : V}
    (h : k ∉ d.map Prod.fst) : getItem d k = 0 := by
  unfold getItem dictGet
  rw [dictGet?_eq_none_of_not_mem h]
  rfl

theorem getItem_of_mem {d : LinearDict V} {k : V} {c : Scalar}
    (hnd : NodupKeys d) (h : (k, c) ∈ d) : getItem d k = c := by
  unfold getItem dictGet
  rw [dictGet?_of_mem hnd h]
  rfl

theorem getItem_dictSet (d : LinearDict V) (v : V) (c : Scalar) (k : V) :
    getItem (dictSet d v c) k = if k = v then c else getItem d k := by
  unfold getItem dictGet
  rw [dictGet?_dictSet]
  by_cases h : k = v <;> simp [h]

theorem getItem_eq_zero_of_not_mem_clean {d : LinearDict V} {k : V}
    (h : k ∉ (clean d 0).map Prod.fst) : getItem d k = 0 := by
  induction d with
  | nil => rfl
  | cons p rest ih =>
      rw [getItem_cons]
      simp only [clean, List.filter_cons] at h
      cases hz : absLe p.2 0 with
      | false =>
          rw [hz] at h
          simp only [Bool.not_false, if_pos] at h
          simp only [List.map_cons, List.mem_cons] at h
          push_neg at h
          have h' : ¬ p.1 = k := fun hh => h.1 hh.symm
          rw [if_neg h']
          exact ih h.2
      | true =>
          rw [hz] at h
          simp only [Bool.not_true, Bool.false_eq_true, if_false] at h
          by_cases hpk : p.1 = k
          · rw [if_pos hpk]
            exact (absLe_zero_iff p.2).mp hz
          · rw [if_neg hpk]
            exact ih h

theorem getItem_clean_zero {d : LinearDict V} (h : NodupKeys d) (k : V) :
    getItem (clean d 0) k = getItem d k := by
  induction d with
  | nil => rfl
  | cons p rest ih =>
      simp only [NodupKeys, List.map_cons, List.nodup_cons] at h
      simp only [clean, List.filter_cons]
      cases hz : absLe p.2 0 with
      | false =>
          simp only [Bool.not_false, if_pos]
          rw [getItem_cons, getItem_cons]
          by_cases hpk : p.1 = k
          · rw [if_pos hpk, if_pos hpk]
          · rw [if_neg hpk, if_neg hpk]
            exact ih h.2
      | true =>
          simp only [Bool.not_true, Bool.false_eq_true, if_false]
          rw [getItem_cons]
          by_cases hpk : p.1 = k
          · rw [if_pos hpk]
            have hk : k ∉ rest.map Prod.fst := hpk ▸ h.1
            have h1 : getItem rest k = 0 := getItem_eq_zero_of_not_mem_keys hk
            have h2 : k ∉ (clean rest 0).map Prod.fst := fun hc =>
              hk (List.Sublist.mem hc
                (List.Sublist.map Prod.fst (List.filter_sublist rest)))
            calc getItem (clean rest 0) k
                = getItem rest k := ih h.2
              _ = 0 := h1
              _ = p.2 := ((absLe_zero_iff p.2).mp hz).symm
          · rw [if_neg hpk]
            exact ih h.2

theorem getItem_setItem {st : LinearDict V} (hnd : NodupKeys st) (v : V)
    (c : Scalar) (k : V) :
    getItem (setItem st v c) k = if k = v then c else getItem st k := by
  by_cases hk : k = v
  · subst hk
    rw [if_pos rfl]
    unfold setItem
    split_ifs with h1 h2
    · rw [getItem_dictSet, if_pos rfl]
    · push_neg at h1
      rw [h1]
      unfold getItem dictGet
      rw [dictGet?_dictDel_self hnd k]
      rfl
    · push_neg at h1
      rw [h1]
      have hm : k ∉ st.map Prod.fst := fun hmem => by
        rw [(dictContains_iff_mem st k).mpr hmem] at h2
        exact h2 rfl
      exact getItem_eq_zero_of_not_mem_keys hm
  · rw [if_neg hk]
    unfold setItem
    split_ifs with h1 h2
    · rw [getItem_dictSet, if_neg hk]
    · unfold getItem dictGet
      rw [dictGet?_dictDel_ne st hk]
    · rfl

theorem getItem_foldl_accumStep (op : Scalar → Scalar → Scalar)
    (hop : ∀ x, op x 0 = x) :
    ∀ (l : List (V × Scalar)), NodupKeys l → ∀ (st : LinearDict V) (k : V),
      getItem (l.foldl (accumStep op) st) k = op (getItem st k) (getItem l k) := by
  intro l
  induction l with
  | nil =>
      intro _ st k
      rw [List.foldl_nil, getItem_nil, hop]
  | cons p rest ih =>
      intro hl st k
      simp only [NodupKeys, List.map_cons, List.nodup_cons] at hl
      rw [List.foldl_cons, ih hl.2, getItem_cons]
      by_cases hk : p.1 = k
      · have hrest : getItem rest k = 0 :=
          getItem_eq_zero_of_not_mem_keys (hk ▸ hl.1)
        rw [if_pos hk, hrest, hop]
        unfold accumStep
        rw [getItem_dictSet]
        rw [if_pos hk.symm, hk]
        rfl
      · have hk' : ¬ k = p.1 := fun hh => hk hh.symm
        rw [if_neg hk]
        unfold accumStep
        rw [getItem_dictSet, if_neg hk']

theorem getItem_foldl_scaleStep (s : Scalar) :
    ∀ (ks : List V), ks.Nodup → ∀ (st : LinearDict V), NodupKeys st → ∀ k : V,
      getItem (ks.foldl (scaleStep s) st) k =
        if k ∈ ks then getItem st k * s else getItem st k := by
  intro ks
  induction ks with
  | nil =>
      intro _ st _ k
      simp
  | cons v rest ih =>
      intro hks st hst k
      simp only [List.nodup_cons] at hks
      have hsc : NodupKeys (scaleStep s st v) := nodupKeys_setItem hst v _
      rw [List.foldl_cons, ih hks.2 (scaleStep s st v) hsc k]
      by_cases hk : k = v
      · subst hk
        have hnr : k ∉ rest := hks.1
        rw [if_neg hnr, if_pos (List.mem_cons_self k rest)]
        unfold scaleStep
        rw [getItem_setItem hst, if_pos rfl]
      · have h1 : getItem (scaleStep s st v) k = getItem st k := by
          unfold scaleStep
          rw [getItem_setItem hst, if_neg hk]
        rw [h1]
        by_cases hm : k ∈ rest
        · rw [if_pos hm, if_pos (List.mem_cons_of_mem v hm)]
        · rw [if_neg hm, if_neg (by simp [hk, hm])]

theorem lastVal_eq_dictGet? {l : LinearDict V} (hl : NodupKeys l) (k : V) :
    lastVal l k = dictGet? l k := by
  induction l with
  | nil => rfl
  | cons p rest ih =>
      simp only [NodupKeys, List.map_cons, List.nodup_cons] at hl
      show (match lastVal rest k with
            | some c => some c
            | none => if p.1 = k then some p.2 else none) =
          if p.1 = k then some p.2 else dictGet? rest k
      rw [ih hl.2]
      cases hg : dictGet? rest k with
      | none => rfl
      | some c =>
          have hk : k ∈ rest.map Prod.fst :=
            List.mem_map.mpr ⟨(k, c), mem_of_dictGet?_eq_some hg, rfl⟩
          have hne : ¬ p.1 = k := fun hh => hl.1 (hh ▸ hk)
          simp [hne]

theorem dictGet?_dictUpdate (l : List (V × Scalar)) :
    ∀ (d : LinearDict V) (k : V),
      dictGet? (dictUpdate d l) k =
        match lastVal l k with
        | some c => some c
        | none => dictGet? d k := by
  induction l with
  | nil => intro d k; rfl
  | cons p rest ih =>
      intro d k
      rw [show dictUpdate d (p :: rest) = dictUpdate (dictSet d p.1 p.2) rest from rfl,
        ih]
      cases hlv : lastVal rest k with
      | some c => simp [lastVal, hlv]
      | none =>
          simp only [lastVal, hlv]
          rw [dictGet?_dictSet]
          by_cases hk : p.1 = k
          · simp [hk]
          · have hk' : ¬ k = p.1 := fun hh => hk hh.symm
            simp [hk, hk']

theorem getItem_init (t : List (V × Scalar)) (k : V) :
    getItem (init t) k = (lastVal t k).getD 0 := by
  unfold init
  rw [getItem_clean_zero (nodupKeys_dictUpdate nodupKeys_nil t)]
  unfold getItem dictGet
  rw [dictGet?_dictUpdate]
  cases hl : lastVal t k <;> simp [dictGet?]

theorem dictUpdate_append_fresh :
    ∀ (l : List (V × Scalar)) (d : LinearDict V),
      (∀ v ∈ l.map Prod.fst, v ∉ d.map Prod.fst) → NodupKeys l →
      dictUpdate d l = d ++ l := by
  intro l
  induction l with
  | nil => intro d _ _; simp [dictUpdate]
  | cons p rest ih =>
      intro d hfresh hl
      simp only [NodupKeys, List.map_cons, List.nodup_cons] at hl
      show dictUpdate (dictSet d p.1 p.2) rest = d ++ p :: rest
      have hp : p.1 ∉ d.map Prod.fst :=
        hfresh p.1 (by simp)
      rw [dictSet_of_not_mem hp]
      rw [ih (d ++ [(p.1, p.2)]) ?_ hl.2]
      · simp
      · intro v hv
        rw [List.map_append, List.mem_append]
        push_neg
        constructor
        · exact hfresh v (by simp [hv])
        · simp only [List.map_cons, List.map_nil, List.mem_singleton]
          intro hh
          exact hl.1 (hh ▸ hv)

theorem dictUpdate_nil_eq {d : LinearDict V} (h : NodupKeys d) :
    dictUpdate ([] : LinearDict V) d = d := by
  have := dictUpdate_append_fresh d [] (by simp) h
  simpa using this

theorem copy_eq_clean_zero {d : LinearDict V} (h : NodupKeys d) :
    copy d = clean d 0 := by
  unfold copy init
  rw [dictUpdate_nil_eq h]

theorem copy_eq_self {d : LinearDict V} (hnd : NodupKeys d) (hw : wfZero d) :
    copy d = d :=
  (copy_eq_clean_zero hnd).trans (clean_zero_eq_self hw)

theorem items_eq_clean {d : LinearDict V} (h : NodupKeys d) :
    items d = clean d 0 := by
  unfold items
  rw [copy_eq_clean_zero h, clean_zero_idem]

theorem getItem_copy {d : LinearDict V} (h : NodupKeys d) (k : V) :
    getItem (copy d) k = getItem d k := by
  rw [copy_eq_clean_zero h]
  exact getItem_clean_zero h k

theorem getItem_items {d : LinearDict V} (h : NodupKeys d) (k : V) :
    getItem (items d) k = getItem d k := by
  rw [items_eq_clean h]
  exact getItem_clean_zero h k

theorem wfZero_items (d : LinearDict V) : wfZero (items d) :=
  wfZero_clean_zero (copy d)

theorem getItem_iadd {a b : LinearDict V} (ha : NodupKeys a) (hb : NodupKeys b)
    (k : V) : getItem (iadd a b) k = getItem a k + getItem b k := by
  have h1 : NodupKeys ((items b).foldl (accumStep (fun x y => x + y)) a) :=
    nodupKeys_foldl _ (fun st p hst => nodupKeys_dictSet hst p.1 _) (items b) a ha
  unfold iadd
  rw [getItem_clean_zero h1]
  rw [getItem_foldl_accumStep _ (fun x => Scalar.add_zero_right x) (items b)
      (nodupKeys_items b) a k]
  rw [getItem_items hb]

theorem getItem_isub {a b : LinearDict V} (ha : NodupKeys a) (hb : NodupKeys b)
    (k : V) : getItem (isub a b) k = getItem a k - getItem b k := by
  have h1 : NodupKeys ((items b).foldl (accumStep (fun x y => x - y)) a) :=
    nodupKeys_foldl _ (fun st p hst => nodupKeys_dictSet hst p.1 _) (items b) a ha
  unfold isub
  rw [getItem_clean_zero h1]
  rw [getItem_foldl_accumStep _ (fun x => Scalar.sub_zero_right x) (items b)
      (nodupKeys_items b) a k]
  rw [getItem_items hb]

theorem getItem_add {a b : LinearDict V} (ha : NodupKeys a) (hb : NodupKeys b)
    (k : V) : getItem (add a b) k = getItem a k + getItem b k := by
  unfold add
  rw [getItem_iadd (nodupKeys_copy a) hb, getItem_copy ha]

theorem getItem_sub {a b : LinearDict V} (ha : NodupKeys a) (hb : NodupKeys b)
    (k : V) : getItem (sub a b) k = getItem a k - getItem b k := by
  unfold sub
  rw [getItem_isub (nodupKeys_copy a) hb, getItem_copy ha]

theorem getItem_imul {a : LinearDict V} (h : NodupKeys a) (s : Scalar) (k : V) :
    getItem (imul a s) k = getItem a k * s := by
  have h1 : NodupKeys ((iterKeys a).foldl (scaleStep s) a) :=
    nodupKeys_foldl _ (fun st v hst => nodupKeys_setItem hst v _) (iterKeys a) a h
  unfold imul
  rw [getItem_clean_zero h1]
  rw [getItem_foldl_scaleStep s (iterKeys a) (nodupKeys_items a) a h k]
  by_cases hm : k ∈ iterKeys a
  · rw [if_pos hm]
  · rw [if_neg hm]
    have h0 : getItem (copy a) k = 0 := getItem_eq_zero_of_not_mem_clean hm
    rw [getItem_copy h] at h0
    rw [h0, Scalar.zero_mul_left]

theorem getItem_mul {a : LinearDict V} (h : NodupKeys a) (s : Scalar) (k : V) :
    getItem (mul a s) k = getItem a k * s := by
  unfold mul
  rw [getItem_imul (nodupKeys_copy a) s, getItem_copy h]

theorem dictGet?_mapSnd (f : Scalar → Scalar) (l : LinearDict V) (k : V) :
    dictGet? (l.map fun p => (p.1, f p.2)) k = (dictGet? l k).map f := by
  induction l with
  | nil => rfl
  | cons p rest ih =>
      by_cases h : p.1 = k <;> simp [dictGet?, h, ih]

theorem nodupKeys_mapSnd (f : Scalar → Scalar) {l : LinearDict V}
    (h : NodupKeys l) : NodupKeys (l.map fun p => (p.1, f p.2)) := by
  unfold NodupKeys at h ⊢
  simpa [List.map_map, Function.comp] using h

theorem getItem_neg {a : LinearDict V} (h : NodupKeys a) (k : V) :
    getItem (neg a) k = Scalar.neg (getItem a k) := by
  unfold neg
  rw [getItem_init]
  rw [lastVal_eq_dictGet? (nodupKeys_mapSnd _ (nodupKeys_items a))]
  rw [dictGet?_mapSnd]
  cases hh : dictGet? (items a) k with
  | none =>
      have h0 : getItem a k = 0 := by
        rw [← getItem_items h k]
        unfold getItem dictGet
        rw [hh]
        rfl
      rw [h0, Scalar.neg_zero_eq]
      rfl
  | some c =>
      have hc : getItem a k = c := by
        rw [← getItem_items h k]
        unfold getItem dictGet
        rw [hh]
        rfl
      rw [hc]
      rfl

theorem bool_eq_false_iff (d : LinearDict V) :
    bool d = false ↔ ∀ p ∈ items d, p.2 = (0 : Scalar) := by
  unfold bool values
  rw [Bool.not_eq_false', List.all_eq_true]
  constructor
  · intro h p hp
    have := h p.2 (List.mem_map.mpr ⟨p, hp, rfl⟩)
    exact of_decide_eq_true this
  · intro h c hc
    rcases List.mem_map.mp hc with ⟨p, hp, rfl⟩
    exact decide_eq_true (h p hp)

theorem bool_eq_false_of_getItem_zero {d : LinearDict V} (hnd : NodupKeys d)
    (hz : ∀ k, getItem d k = 0) : bool d = false := by
  rw [bool_eq_false_iff]
  intro p hp
  have hmem : p ∈ copy d := (mem_clean_zero.mp hp).1
  have : getItem (copy d) p.1 = p.2 := by
    rcases p with ⟨v, c⟩
    exact getItem_of_mem (nodupKeys_copy d) hmem
  rw [getItem_copy hnd] at this
  rw [← this, hz]

theorem mem_dictSet {d : LinearDict V} {v : V} {c : Scalar} {p : V × Scalar}
    (h : p ∈ dictSet d v c) : p ∈ d ∨ p = (v, c) := by
  induction d with
  | nil =>
      simp only [dictSet, List.mem_singleton] at h
      exact Or.inr h
  | cons q rest ih =>
      by_cases h1 : q.1 = v
      · simp only [dictSet, if_pos h1, List.mem_cons] at h
        rcases h with h | h
        · exact Or.inr (by rw [h, h1])
        · exact Or.inl (List.mem_cons_of_mem q h)
      · simp only [dictSet, if_neg h1, List.mem_cons] at h
        rcases h with h | h
        · exact Or.inl (List.mem_cons.mpr (Or.inl h))
        · rcases ih h with h2 | h2
          · exact Or.inl (List.mem_cons.mpr (Or.inr h2))
          · exact Or.inr h2

theorem wfZero_setItem {d : LinearDict V} (hd : wfZero d) (v : V) (c : Scalar) :
    wfZero (setItem d v c) := by
  unfold setItem
  split_ifs with h1 h2
  · intro p hp
    rcases mem_dictSet hp with h | h
    · exact hd p h
    · rw [h]
      exact h1
  · intro p hp
    exact hd p (List.Sublist.mem hp (dictDel_sublist d v))
  · exact hd

theorem eqB_true_iff (a b : LinearDict V) :
    eqB a b = true ↔ ∀ v ∈ unionKeys a b, getItem a v = getItem b v := by
  unfold eqB
  rw [List.all_eq_true]
  constructor
  · intro h v hv
    exact of_decide_eq_true (h v hv)
  · intro h v hv
    exact decide_eq_true (h v hv)

theorem eqB_true_of_forall {a b : LinearDict V}
    (h : ∀ v, getItem a v = getItem b v) : eqB a b = true :=
  (eqB_true_iff a b).mpr fun v _ => h v

/-- Claim C1: after every public operation the container holds no entry with
coefficient exactly `0+0i` (`wfZero`), and no exact-zero entry is observable
through `items`/`values` enumeration, membership, or length; the `truediv`
conjunct covers the result when the division succeeds. -/
theorem claim1_zero_elision {V : Type} [DecidableEq V] (d o : LinearDict V)
    (t : List (V × Scalar)) (vs : List V) (v k : V) (c s : Scalar) (atol : ℚ)
    (hd : wfZero d) :
    wfZero (init t) ∧ wfZero (fromkeys vs c) ∧ wfZero (update d t) ∧
    wfZero (setItem d v c) ∧ wfZero (clean d atol) ∧
    wfZero (iadd d o) ∧ wfZero (isub d o) ∧ wfZero (imul d s) ∧
    wfZero (add d o) ∧ wfZero (sub d o) ∧ wfZero (neg d) ∧
    wfZero (mul d s) ∧ wfZero (rmul s d) ∧ wfZero (copy d) ∧
    (∀ r, truediv d s = some r → wfZero r) ∧
    (∀ p ∈ items d, p.2 ≠ (0 : Scalar)) ∧
    (∀ q0 ∈ values d, q0 ≠ (0 : Scalar)) ∧
    (contains d k = true → getItem d k ≠ 0) ∧
    length d = (items d).length := by
  refine ⟨wfZero_clean_zero _, wfZero_clean_zero _, wfZero_clean_zero _,
    wfZero_setItem hd v c, wfZero_clean hd atol,
    wfZero_clean_zero _, wfZero_clean_zero _, wfZero_clean_zero _,
    wfZero_clean_zero _, wfZero_clean_zero _, wfZero_clean_zero _,
    wfZero_clean_zero _, wfZero_clean_zero _, wfZero_clean_zero _,
    ?_, wfZero_items d, ?_, ?_, ?_⟩
  · intro r hr
    unfold truediv at hr
    cases hs : Scalar.sdiv 1 s with
    | none => rw [hs] at hr; exact absurd hr (by simp)
    | some r0 =>
        rw [hs] at hr
        simp only [Option.some.injEq] at hr
        rw [← hr]
        exact wfZero_clean_zero _
  · intro q0 hq0
    rcases List.mem_map.mp hq0 with ⟨p, hp, rfl⟩
    exact wfZero_items d p hp
  · intro hc
    unfold contains at hc
    cases hg : dictGet? d k with
    | none => rw [hg] at hc; exact absurd hc (by simp)
    | some c0 =>
        rw [hg] at hc
        simp only [decide_eq_true_eq] at hc
        unfold getItem dictGet
        rw [hg]
        exact hc
  · unfold length
    rw [List.filter_eq_self.mpr]
    intro p hp
    exact decide_eq_true (wfZero_items d p hp)

/-- Claim C2: construction (and bulk update) is last-write-wins overwrite —
the built container reads back the last value written for each key (`0` when
never written), and the concrete scenario `{x: 1}` updated with `{x: 2}`
yields `{x: 2}` — while `+=` sums: `{x: 1} += {x: 2}` yields `{x: 3}`. -/
theorem claim2_last_write_wins {V : Type} [DecidableEq V] (d : LinearDict V)
    (t : List (V × Scalar)) (k x : V) (hd : NodupKeys d) :
    getItem (init t) k = (lastVal t k).getD 0 ∧
    getItem (update d t) k = (lastVal t k).getD (getItem d k) ∧
    update (init [(x, ⟨1, 0⟩)]) [(x, ⟨2, 0⟩)] = [(x, ⟨2, 0⟩)] ∧
    iadd (init [(x, ⟨1, 0⟩)]) [(x, ⟨2, 0⟩)] = [(x, ⟨3, 0⟩)] := by
  have h1 : absLe (⟨1, 0⟩ : Scalar) 0 = false := by decide
  have h2 : absLe (⟨2, 0⟩ : Scalar) 0 = false := by decide
  have h3 : absLe (⟨3, 0⟩ : Scalar) 0 = false := by decide
  have hadd : (⟨1, 0⟩ : Scalar) + ⟨2, 0⟩ = ⟨3, 0⟩ := by
    show Scalar.mk ((1 : ℚ) + 2) ((0 : ℚ) + 0) = ⟨3, 0⟩
    norm_num
  refine ⟨getItem_init t k, ?_, ?_, ?_⟩
  · unfold update
    rw [getItem_clean_zero (nodupKeys_dictUpdate hd t)]
    show (dictGet? (dictUpdate d t) k).getD 0 = _
    rw [dictGet?_dictUpdate]
    cases lastVal t k <;> rfl
  · simp [init, update, dictUpdate, dictSet, clean, List.filter_cons, h1, h2]
  · simp [init, iadd, items, copy, update, dictUpdate, dictSet, accumStep,
      getItem, dictGet, dictGet?, clean, List.filter_cons, h1, h2, h3, hadd]

/-- Claim C3: equality compares coefficient by coefficient over the union of
the zero-cleaned key sets (absent keys read as `0` through `getItem`);
comparing with a non-container operand yields `NotImplemented` rather than
`False`, and `__ne__` is the negation of `__eq__` under the same escape. -/
theorem claim3_exact_equality {V : Type} [DecidableEq V] (a b : LinearDict V) :
    (eqMethod a (Sum.inl b) = PyCmpResult.res true ↔
      ∀ v ∈ unionKeys a b, getItem a v = getItem b v) ∧
    eqMethod a (Sum.inr ()) = PyCmpResult.notImplemented ∧
    (neMethod a (Sum.inl b) = PyCmpResult.res true ↔
      ¬ ∀ v ∈ unionKeys a b, getItem a v = getItem b v) ∧
    neMethod a (Sum.inr ()) = PyCmpResult.notImplemented := by
  refine ⟨?_, rfl, ?_, rfl⟩
  · rw [show eqMethod a (Sum.inl b) = PyCmpResult.res (eqB a b) from rfl]
    rw [← eqB_true_iff]
    constructor
    · intro h
      cases hq : eqB a b with
      | true => rfl
      | false => rw [hq] at h; exact absurd h (by simp)
    · intro h
      rw [h]
  · rw [show neMethod a (Sum.inl b) = PyCmpResult.res (!(eqB a b)) from rfl]
    rw [← eqB_true_iff]
    constructor
    · intro h hq
      rw [hq] at h
      exact absurd h (by simp)
    · intro h
      cases hq : eqB a b with
      | true => exact absurd hq h
      | false => rfl

/-- Claim C4: dividing by the zero scalar propagates the arithmetic error of
`1 / 0` (modelled as `none`) instead of producing a container, and leaves the
container unmodified; for nonzero `s`, `a / s` is `a * (1/s)`. -/
theorem claim4_div_by_zero {V : Type} [DecidableEq V] (a : LinearDict V)
    (s : Scalar) (hs : s ≠ 0) :
    truediv a 0 = none ∧
    (truedivSt a 0).2 = a ∧
    (truedivSt a s).2 = a ∧
    truediv a s = some (mul a (Scalar.inv s)) := by
  have h0 : Scalar.sdiv 1 0 = none := by
    unfold Scalar.sdiv
    rw [if_pos rfl]
  have h1 : Scalar.sdiv 1 s = some (Scalar.inv s) := by
    unfold Scalar.sdiv
    rw [if_neg hs, Scalar.one_mul_left]
  refine ⟨?_, ?_, ?_, ?_⟩
  · unfold truediv
    rw [h0]
  · unfold truedivSt
    rw [h0]
  · unfold truedivSt
    rw [h1]
  · unfold truediv
    rw [h1]

/-- Claim C5: subscript read is total — the stored coefficient, `0` when the
key is absent, never an error — and `get` returns the stored coefficient
unless the key is absent or stores exact zero, in which case it returns the
default. -/
theorem claim5_total_lookup {V : Type} [DecidableEq V] (d : LinearDict V)
    (v : V) (dflt : Scalar) :
    getItem d v = (dictGet? d v).getD 0 ∧
    (dictGet? d v = none → getItem d v = 0 ∧ get d v dflt = dflt) ∧
    (∀ c, dictGet? d v = some c →
      getItem d v = c ∧ (c = 0 → get d v dflt = dflt) ∧
      (c ≠ 0 → get d v dflt = c)) := by
  refine ⟨rfl, ?_, ?_⟩
  · intro h
    unfold getItem get dictGet
    rw [h]
    simp
  · intro c h
    unfold getItem get dictGet
    rw [h]
    refine ⟨rfl, ?_, ?_⟩
    · intro hc
      simp [hc]
    · intro hc
      simp [hc]

/-- Claim C6: the value-returning operators build their result from a copy
and only read their operands — in the state-passing model each returns the
operand states unchanged — and `a + b` is exactly `+= b` applied to a copy
of `a`; for a well-formed container the copy has the same entries. -/
theorem claim6_frame {V : Type} [DecidableEq V] (a b : LinearDict V)
    (s : Scalar) (hnd : NodupKeys a) (hw : wfZero a) :
    addSt a b = (iadd (copy a) b, a, b) ∧
    subSt a b = (isub (copy a) b, a, b) ∧
    mulSt a s = (imul (copy a) s, a) ∧
    rmulSt s a = (mul a s, a) ∧
    negSt a = (neg a, a) ∧
    (truedivSt a s).2 = a ∧
    add a b = iadd (copy a) b ∧
    sub a b = isub (copy a) b ∧
    mul a s = imul (copy a) s ∧
    rmul s a = mul a s ∧
    copy a = a := by
  refine ⟨rfl, rfl, rfl, rfl, rfl, ?_, rfl, rfl, rfl, rfl, copy_eq_self hnd hw⟩
  unfold truedivSt
  cases Scalar.sdiv 1 s <;> rfl

/-- Claim C7: `a + (-a)` and `a - a` are empty: their truthiness is `False`. -/
theorem claim7_additive_inverse {V : Type} [DecidableEq V] (a : LinearDict V)
    (hnd : NodupKeys a) :
    bool (add a (neg a)) = false ∧ bool (sub a a) = false := by
  constructor
  · apply bool_eq_false_of_getItem_zero (nodupKeys_add a (neg a))
    intro k
    rw [getItem_add hnd (nodupKeys_neg a), getItem_neg hnd, Scalar.add_neg_self]
  · apply bool_eq_false_of_getItem_zero (nodupKeys_sub a a)
    intro k
    rw [getItem_sub hnd hnd, Scalar.sub_self_eq_zero]

/-- Claim C8 counterexample: the default (`'.3f'`) rendering of the empty
container is `0.000` — the literal `0` formatted under `'.3f'` — not `0` as
the claim states. -/
theorem claim8_counterexample :
    ¬ (strLD strLt id ([] : LinearDict String) = "0") := by decide

/-- Claim C8 (amended): under the default 3-decimal format the empty
container renders as `0.000` (the spec's literal `0` is wrong — the code
formats the integer zero under `'.3f'`); the four nonempty scenarios render
exactly as claimed, sorted by key, concatenated without separator, with the
first term's leading `+` stripped. -/
theorem claim8_formatting :
    strLD strLt id ([] : LinearDict String) = "0.000" ∧
    strLD strLt id (init [("A", (⟨1, 0⟩ : Scalar))]) = "1.000*A" ∧
    strLD strLt id (init [("A", (⟨-1, 0⟩ : Scalar))]) = "-1.000*A" ∧
    strLD strLt id (init [("A", (⟨0, 2⟩ : Scalar))]) = "2.000j*A" ∧
    strLD strLt id (init [("A", (⟨1, 0⟩ : Scalar)), ("B", (⟨-2, 0⟩ : Scalar))]) =
      "1.000*A-2.000*B" :=
  ⟨by decide, by decide, by decide, by decide, by decide⟩

/-- Claim C9: `clean()` with no argument uses the default tolerance `1e-9`,
removing exactly the entries whose coefficient has absolute value at most
`1e-9` — including nonzero ones, as the concrete `10⁻¹⁰` entry shows — and
returns the container itself (returned value and post-state coincide). -/
theorem claim9_clean_default {V : Type} [DecidableEq V] (d : LinearDict V)
    (v : V) :
    cleanDefault d = clean d (1 / 1000000000) ∧
    (∀ p, p ∈ cleanDefault d ↔ p ∈ d ∧ absLe p.2 (1 / 1000000000) = false) ∧
    (∀ c : Scalar, absLe c (1 / 1000000000) = true ↔
      0 ≤ (1 / 1000000000 : ℚ) ∧
      c.abs2 ≤ (1 / 1000000000 : ℚ) * (1 / 1000000000)) ∧
    absLe ⟨1 / 10000000000, 0⟩ (1 / 1000000000) = true ∧
    (⟨1 / 10000000000, 0⟩ : Scalar) ≠ 0 ∧
    cleanDefault [(v, ⟨1 / 10000000000, 0⟩)] = ([] : LinearDict V) ∧
    cleanSt d cleanDefaultAtol = (cleanDefault d, cleanDefault d) := by
  have habs : absLe (⟨1 / 10000000000, 0⟩ : Scalar) (1 / 1000000000) = true := by
    rw [absLe_iff]
    constructor
    · norm_num
    · show (1 / 10000000000 : ℚ) * (1 / 10000000000) + 0 * 0 ≤ _
      norm_num
  refine ⟨rfl, ?_, fun c => absLe_iff c _, habs, ?_, ?_, rfl⟩
  · intro p
    exact mem_clean
  · intro h
    have : (1 / 10000000000 : ℚ) = 0 := congrArg Scalar.re h
    norm_num at this
  · unfold cleanDefault cleanDefaultAtol clean
    rw [List.filter_cons, habs]
    simp

/-- Claim C10: the aliased in-place addition `a += a` is well-defined — the
right-hand side is read once as the cleaned `items()` snapshot, the fold over
that snapshot terminates by construction — and the result equals `a * 2`
under container equality, every coefficient doubled. -/
theorem claim10_self_iadd {V : Type} [DecidableEq V] (a : LinearDict V)
    (hnd : NodupKeys a) :
    eqB (iadd a a) (mul a ⟨2, 0⟩) = true ∧
    (∀ k, getItem (iadd a a) k = getItem a k + getItem a k) := by
  have hdouble : ∀ k, getItem (iadd a a) k = getItem a k + getItem a k :=
    fun k => getItem_iadd hnd hnd k
  refine ⟨eqB_true_of_forall fun k => ?_, hdouble⟩
  rw [hdouble k, getItem_mul hnd, Scalar.add_self_eq_mul_two]

/-- Witness for C1 at a concrete container: the zero-eliding subscript write
keeps the container free of exact-zero entries. -/
theorem claim1_zero_elision_witness :
    wfZero (setItem [((0 : ℕ), (⟨1, 0⟩ : Scalar))] 1 ⟨5, 0⟩) :=
  (claim1_zero_elision [((0 : ℕ), ⟨1, 0⟩)] [] [] [] 1 0 ⟨5, 0⟩ ⟨2, 0⟩ (1 / 2)
    (by decide)).2.2.2.1

/-- Witness for C2 at a concrete container: updating `{0: 1}` with `{0: 2}`
reads back `2`, the last write. -/
theorem claim2_last_write_wins_witness :
    getItem (update [((0 : ℕ), (⟨1, 0⟩ : Scalar))] [(0, ⟨2, 0⟩)]) 0 =
      (lastVal [((0 : ℕ), (⟨2, 0⟩ : Scalar))] 0).getD
        (getItem [((0 : ℕ), (⟨1, 0⟩ : Scalar))] 0) :=
  (claim2_last_write_wins [((0 : ℕ), ⟨1, 0⟩)] [(0, ⟨2, 0⟩)] 0 0 (by decide)).2.1

/-- Witness for C4 at a concrete container and the nonzero scalar `2`. -/
theorem claim4_div_by_zero_witness :
    truediv [((0 : ℕ), (⟨1, 0⟩ : Scalar))] 0 = none ∧
    (truedivSt [((0 : ℕ), (⟨1, 0⟩ : Scalar))] 0).2 = [((0 : ℕ), ⟨1, 0⟩)] ∧
    (truedivSt [((0 : ℕ), (⟨1, 0⟩ : Scalar))] (⟨2, 0⟩ : Scalar)).2 =
      [((0 : ℕ), ⟨1, 0⟩)] ∧
    truediv [((0 : ℕ), (⟨1, 0⟩ : Scalar))] (⟨2, 0⟩ : Scalar) =
      some (mul [((0 : ℕ), ⟨1, 0⟩)] (Scalar.inv ⟨2, 0⟩)) :=
  claim4_div_by_zero [((0 : ℕ), ⟨1, 0⟩)] ⟨2, 0⟩ (by decide)

/-- Witness for C5 at a container storing `3` at key `0`. -/
theorem claim5_total_lookup_witness :
    getItem [((0 : ℕ), (⟨3, 0⟩ : Scalar))] 0 = ⟨3, 0⟩ ∧
    ((⟨3, 0⟩ : Scalar) = 0 →
      get [((0 : ℕ), (⟨3, 0⟩ : Scalar))] 0 ⟨9, 0⟩ = ⟨9, 0⟩) ∧
    ((⟨3, 0⟩ : Scalar) ≠ 0 →
      get [((0 : ℕ), (⟨3, 0⟩ : Scalar))] 0 ⟨9, 0⟩ = ⟨3, 0⟩) :=
  (claim5_total_lookup [((0 : ℕ), ⟨3, 0⟩)] 0 ⟨9, 0⟩).2.2 ⟨3, 0⟩ (by decide)

/-- Witness for C6: on a concrete well-formed container the constructor
round-trip `copy` returns the same entries. -/
theorem claim6_frame_witness :
    copy [((0 : ℕ), (⟨1, 0⟩ : Scalar))] = [((0 : ℕ), ⟨1, 0⟩)] :=
  (claim6_frame [((0 : ℕ), ⟨1, 0⟩)] [] ⟨2, 0⟩ (by decide)
    (by decide)).2.2.2.2.2.2.2.2.2.2

/-- Witness for C7 at the concrete container `{0: 1}`. -/
theorem claim7_additive_inverse_witness :
    bool (add [((0 : ℕ), (⟨1, 0⟩ : Scalar))]
      (neg [((0 : ℕ), (⟨1, 0⟩ : Scalar))])) = false ∧
    bool (sub [((0 : ℕ), (⟨1, 0⟩ : Scalar))]
      [((0 : ℕ), (⟨1, 0⟩ : Scalar))]) = false :=
  claim7_additive_inverse [((0 : ℕ), ⟨1, 0⟩)] (by decide)

/-- Witness for C10 at the concrete container `{0: 1}`. -/
theorem claim10_self_iadd_witness :
    eqB (iadd [((0 : ℕ), (⟨1, 0⟩ : Scalar))] [((0 : ℕ), (⟨1, 0⟩ : Scalar))])
      (mul [((0 : ℕ), (⟨1, 0⟩ : Scalar))] ⟨2, 0⟩) = true :=
  (claim10_self_iadd [((0 : ℕ), ⟨1, 0⟩)] (by decide)).1

end LinDict
